import Mathlib

/-!
# Verification of the title-slugify plugin core (src/main.ts)

Shallow embedding of the testable core of the plugin:

* the slug normalizer `slugify` and the validity predicate `isValidSlug`
  (src/main.ts lines 4-14),
* the rename policy `handleRename` (src/main.ts lines 29-52), modeled as a
  pure decision function (the actual file move, notice toast and the cosmetic
  colorize call are host side effects; we record the decision and the notices),
* the ownership view-mode arbiter `checkAndSetViewMode`
  (src/main.ts lines 70-107), likewise modeled as a pure decision function.

Strings are modeled as `List Char`.  JavaScript's Unicode-aware library calls
(`toLowerCase`, `trim`, `normalize('NFD')`) are modeled character-wise:
`toLowerCase` on the ASCII and Latin-1 ranges, `trim` and the regex class `\s`
by the ECMAScript white-space set, and NFD by an explicit canonical
decomposition table for the Latin-1 letters (identity on every other
character).
-/

namespace TitleSlugify

/-- The ECMAScript white-space set: the characters matched by the regex class
`\s` and stripped by `String.prototype.trim` (WhiteSpace ∪ LineTerminator:
TAB LF VT FF CR SP NBSP ZWNBSP and the Unicode space separators). -/
def isJsWhitespace (c : Char) : Bool :=
  decide (c.toNat = 9 ∨ c.toNat = 10 ∨ c.toNat = 11 ∨ c.toNat = 12 ∨
    c.toNat = 13 ∨ c.toNat = 32 ∨ c.toNat = 0xa0 ∨ c.toNat = 0x1680 ∨
    (0x2000 ≤ c.toNat ∧ c.toNat ≤ 0x200a) ∨ c.toNat = 0x2028 ∨
    c.toNat = 0x2029 ∨ c.toNat = 0x202f ∨ c.toNat = 0x205f ∨
    c.toNat = 0x3000 ∨ c.toNat = 0xfeff)

/-- A character of the class `[a-z0-9._]` used by `isValidSlugRegex`
(src/main.ts line 4). -/
def isSlugChar (c : Char) : Bool :=
  decide ((97 ≤ c.toNat ∧ c.toNat ≤ 122) ∨ (48 ≤ c.toNat ∧ c.toNat ≤ 57) ∨
    c.toNat = 46 ∨ c.toNat = 95)

/-- A character kept by the removal step `.replace(/[^a-z0-9\s-._]/g, '')`
(src/main.ts line 11): lowercase ASCII letters, digits, white space, hyphen,
dot, underscore.  (In that character class the `-` after `\s` is literal.) -/
def isKeptChar (c : Char) : Bool :=
  decide ((97 ≤ c.toNat ∧ c.toNat ≤ 122) ∨ (48 ≤ c.toNat ∧ c.toNat ≤ 57) ∨
    isJsWhitespace c = true ∨ c.toNat = 45 ∨ c.toNat = 46 ∨ c.toNat = 95)

/-- A combining diacritical mark, the class `[̀-ͯ]` removed at
src/main.ts line 10. -/
def isCombiningMark (c : Char) : Bool :=
  decide (0x300 ≤ c.toNat ∧ c.toNat ≤ 0x36f)

/-- Embedding of `String.prototype.toLowerCase`, character-wise, restricted to the ASCII
letters and the Latin-1 uppercase letters `À`-`Þ` (U+00C0-U+00DE except `×`),
which all lowercase by adding 32; identity on every other character. -/
def jsToLower (c : Char) : Char :=
  if 65 ≤ c.toNat ∧ c.toNat ≤ 90 then Char.ofNat (c.toNat + 32)
  else if 0xc0 ≤ c.toNat ∧ c.toNat ≤ 0xde ∧ c.toNat ≠ 0xd7 then
    Char.ofNat (c.toNat + 32)
  else c

/-- Embedding of `String.prototype.trim`: drop ECMAScript white space from both ends. -/
def jsTrim (l : List Char) : List Char :=
  ((l.dropWhile isJsWhitespace).reverse.dropWhile isJsWhitespace).reverse

/-- Canonical-decomposition table for `normalize('NFD')`, keyed by code
point: the Latin-1 lowercase letters with diacritics (the uppercase ones have
already been lowercased by step 1 of the pipeline).  Every key lies in
U+00E0-U+00FF. -/
def nfdTable : List (Nat × List Char) :=
  [(0xe0, ['a', Char.ofNat 0x300]), (0xe1, ['a', Char.ofNat 0x301]),
   (0xe2, ['a', Char.ofNat 0x302]), (0xe3, ['a', Char.ofNat 0x303]),
   (0xe4, ['a', Char.ofNat 0x308]), (0xe5, ['a', Char.ofNat 0x30a]),
   (0xe7, ['c', Char.ofNat 0x327]),
   (0xe8, ['e', Char.ofNat 0x300]), (0xe9, ['e', Char.ofNat 0x301]),
   (0xea, ['e', Char.ofNat 0x302]), (0xeb, ['e', Char.ofNat 0x308]),
   (0xec, ['i', Char.ofNat 0x300]), (0xed, ['i', Char.ofNat 0x301]),
   (0xee, ['i', Char.ofNat 0x302]), (0xef, ['i', Char.ofNat 0x308]),
   (0xf1, ['n', Char.ofNat 0x303]),
   (0xf2, ['o', Char.ofNat 0x300]), (0xf3, ['o', Char.ofNat 0x301]),
   (0xf4, ['o', Char.ofNat 0x302]), (0xf5, ['o', Char.ofNat 0x303]),
   (0xf6, ['o', Char.ofNat 0x308]),
   (0xf9, ['u', Char.ofNat 0x300]), (0xfa, ['u', Char.ofNat 0x301]),
   (0xfb, ['u', Char.ofNat 0x302]), (0xfc, ['u', Char.ofNat 0x308]),
   (0xfd, ['y', Char.ofNat 0x301]), (0xff, ['y', Char.ofNat 0x308])]

/-- Association lookup in the NFD table. -/
def nfdLookup (n : Nat) : List (Nat × List Char) → Option (List Char)
  | [] => none
  | (k, v) :: rest => if n = k then some v else nfdLookup n rest

/-- Embedding of `normalize('NFD')`, character-wise: canonical decomposition per the table,
identity on characters without an entry. -/
def nfdChar (c : Char) : List Char :=
  match nfdLookup c.toNat nfdTable with
  | some l => l
  | none => [c]

/-- Embedding of `normalize('NFD')` on a whole string. -/
def nfdAll (l : List Char) : List Char := (l.map nfdChar).flatten

/-- Step 4 of `slugify`: `.replace(/[̀-ͯ]/g, '')`. -/
def stripMarks (l : List Char) : List Char :=
  l.filter (fun c => !isCombiningMark c)

/-- Step 5 of `slugify`: `.replace(/[^a-z0-9\s-._]/g, '')`. -/
def keepAllowed (l : List Char) : List Char := l.filter isKeptChar

/-- Global regex replacement of every maximal run of characters satisfying
`p` by the single character `r`.  `inRun` records whether the previous
character belonged to a run whose replacement has already been emitted. -/
def collapseRunsAux (p : Char → Bool) (r : Char) : Bool → List Char → List Char
  | _, [] => []
  | inRun, c :: cs =>
    if p c then
      if inRun then collapseRunsAux p r true cs
      else r :: collapseRunsAux p r true cs
    else c :: collapseRunsAux p r false cs

/-- Global regex replacement `run-of-p ↦ r` on a whole string. -/
def collapseRuns (p : Char → Bool) (r : Char) (l : List Char) : List Char :=
  collapseRunsAux p r false l

/-- The character class of the regex on src/main.ts line 13. -/
def isHyphen (c : Char) : Bool := c == '-'

/-- Step 6 of `slugify`: `.replace(/[\s]+/g, '-')` — every maximal run of
white space becomes a single hyphen. -/
def collapseWs (l : List Char) : List Char := collapseRuns isJsWhitespace '-' l

/-- Step 7 of `slugify`, the regex replace of `-+` by `-` at src/main.ts
line 13 — every maximal run of hyphens becomes a single hyphen. -/
def collapseHyphens (l : List Char) : List Char := collapseRuns isHyphen '-' l

/-- The function `slugify` (src/main.ts lines 5-14): lowercase, trim, NFD-decompose, strip
combining marks, drop disallowed characters, collapse white-space runs to a
hyphen, collapse hyphen runs. -/
def slugify (s : List Char) : List Char :=
  collapseHyphens (collapseWs (keepAllowed (stripMarks (nfdAll
    (jsTrim (s.map jsToLower))))))

mutual

/-- Matcher for `isValidSlugRegex = /^[a-z0-9._]+(?:-[a-z0-9._]+)*$/`
(src/main.ts line 4), state "a group of `[a-z0-9._]+` must start here". -/
def validGroup : List Char → Bool
  | [] => false
  | c :: cs => isSlugChar c && validTail cs

/-- Matcher state "at least one slug character of the current group has been
seen": more slug characters may follow, or a hyphen starting a new group, or
the end of the string. -/
def validTail : List Char → Bool
  | [] => true
  | c :: cs =>
    if isSlugChar c then validTail cs
    else if c = '-' then validGroup cs
    else false

end

/-- The test `isValidSlugRegex.test` (src/main.ts line 4). -/
def isValidSlug (s : List Char) : Bool := validGroup s

/-! ## Rename policy (`handleRename`, src/main.ts lines 29-52) -/

/-- The structural context of a file as `handleRename` reads it off the host
`TFile`: `basename` is `file.basename`, where `[]` models both a missing and
an empty base name (the two falsy cases of the guard on line 31); `dirPath`
is `file.parent?.path || ""` (line 35); `extension` is `file.extension`
without its dot, `[]` when the file has none (line 36). -/
structure FileIdentity where
  basename : List Char
  dirPath : List Char
  extension : List Char

/-- What `handleRename` decides for a file. -/
inductive RenameDecision where
  /-- The guard on line 31 returned early: no decision was taken. -/
  | skipped
  /-- The base name is already a valid slug: fell through the `if` on
  line 38 without renaming. -/
  | noRenameNeeded
  /-- The host move `renameFile` is invoked with this new path (line 44). -/
  | renameTo (newPath : List Char)
deriving DecidableEq

/-- The decision of `handleRename` together with the user-visible notices it
emits.  The actual file move and the cosmetic `colorizeFileNames` call are
host side effects outside the decision core. -/
structure RenameOutcome where
  decision : RenameDecision
  notices : List (List Char)
deriving DecidableEq

/-- The toast text on src/main.ts line 45. -/
def slugifiedNotice : List Char := "File name slugified".toList

/-- The handler `handleRename` (src/main.ts lines 29-52) as a pure decision function. -/
def handleRename (f : FileIdentity) : RenameOutcome :=
  if f.basename = [] then ⟨.skipped, []⟩
  else
    let extension := if f.extension = [] then [] else '.' :: f.extension
    if !isValidSlug f.basename then
      let slugified := slugify f.basename
      let newPath :=
        if f.dirPath ≠ [] then f.dirPath ++ '/' :: (slugified ++ extension)
        else slugified ++ extension
      ⟨.renameTo newPath, [slugifiedNotice]⟩
    else ⟨.noRenameNeeded, []⟩

/-! ## Ownership view-mode arbiter (`checkAndSetViewMode`,
src/main.ts lines 70-107) -/

/-- The outcome of `checkAndSetViewMode`: the computed target mode (`"source"`
is the editable mode, `"preview"` the reading mode), the two locals of the
source, whether `leaf.setViewState` is called (`changed`), and the notices
shown. -/
structure ViewOutcome where
  targetMode : String
  isOwnedByOther : Bool
  owner : String
  changed : Bool
  notices : List String
deriving DecidableEq

/-- The toast text on src/main.ts line 101. -/
def ownedNotice (owner : String) : String :=
  "Document owned by '" ++ owner ++ "' - opened in Reading View"

/-- The arbiter `checkAndSetViewMode` (src/main.ts lines 70-107) as a pure decision
function.  `frontOwner` is the `owner` front-matter field: `none` models a
missing cache, missing front matter or missing field, `some o` a present
field with value `o` (possibly empty — emptiness is part of the truthiness
test `frontmatter && frontmatter.owner` on line 80).  `observedMode` is the
`mode` of `(currentView as any).getState?.()`: `none` models a view without
`getState` or a falsy state (line 87).  `changed` records whether
`leaf.setViewState` is called (line 91). -/
def checkAndSetViewMode (frontOwner : Option String) (currentUser : String)
    (observedMode : Option String) : ViewOutcome :=
  let owned : String × Bool × String :=
    match frontOwner with
    | some o =>
      if o ≠ "" ∧ o ≠ currentUser then ("preview", true, o)
      else ("source", false, "")
    | none => ("source", false, "")
  let targetMode := owned.1
  let isOwnedByOther := owned.2.1
  let owner := owned.2.2
  match observedMode with
  | some m =>
    if m ≠ targetMode then
      { targetMode := targetMode, isOwnedByOther := isOwnedByOther,
        owner := owner, changed := true,
        notices := if isOwnedByOther then [ownedNotice owner] else [] }
    else
      { targetMode := targetMode, isOwnedByOther := isOwnedByOther,
        owner := owner, changed := false, notices := [] }
  | none =>
    { targetMode := targetMode, isOwnedByOther := isOwnedByOther,
      owner := owner, changed := false, notices := [] }

/-! ## Auxiliary definitions used by the analysis -/

/-- The characters `slugify` can produce: slug characters and the hyphen. -/
def okChar (c : Char) : Bool := isSlugChar c || isHyphen c

/-- No two adjacent characters of the list both satisfy `p`. -/
def noTwoAdjacent (p : Char → Bool) : List Char → Bool
  | [] => true
  | [_] => true
  | a :: b :: rest => !(p a && p b) && noTwoAdjacent p (b :: rest)

/-- A character that the `slugify` pipeline drops entirely: lowercasing
leaves it unchanged, it is not white space (so neither `trim` nor the
white-space collapse sees it), and its NFD decomposition leaves nothing
after the combining-mark strip and the character filter.  Examples: `?`,
`!`, `#`. -/
def disallowedChar (c : Char) : Bool :=
  jsToLower c == c && !isJsWhitespace c &&
    keepAllowed (stripMarks (nfdChar c)) == []

/-! ## Character-level facts -/

lemma char_eq_of_toNat_eq {a b : Char} (h : a.toNat = b.toNat) : a = b :=
  Char.ext (UInt32.ext h)

lemma isHyphen_eq {c : Char} (h : isHyphen c = true) : c = '-' := beq_iff_eq.mp h

lemma okChar_cases {c : Char} (h : okChar c = true) :
    (97 ≤ c.toNat ∧ c.toNat ≤ 122) ∨ (48 ≤ c.toNat ∧ c.toNat ≤ 57) ∨
      c.toNat = 46 ∨ c.toNat = 95 ∨ c = '-' := by
  simp only [okChar, isSlugChar, isHyphen, Bool.or_eq_true, decide_eq_true_eq,
    beq_iff_eq] at h
  tauto

lemma okChar_of_toNat {c : Char}
    (h : (97 ≤ c.toNat ∧ c.toNat ≤ 122) ∨ (48 ≤ c.toNat ∧ c.toNat ≤ 57) ∨
      c.toNat = 45 ∨ c.toNat = 46 ∨ c.toNat = 95) : okChar c = true := by
  simp only [okChar, isSlugChar, isHyphen, Bool.or_eq_true, decide_eq_true_eq,
    beq_iff_eq]
  rcases h with h | h | h | h | h
  · tauto
  · tauto
  · exact Or.inr (char_eq_of_toNat_eq (by rw [h]; rfl))
  · tauto
  · tauto

lemma slugChar_not_hyphen {c : Char} (h : isSlugChar c = true) :
    isHyphen c = false := by
  cases hh : isHyphen c with
  | false => rfl
  | true => rw [isHyphen_eq hh] at h; exact absurd h (by decide)

lemma okChar_not_ws {c : Char} (h : okChar c = true) :
    isJsWhitespace c = false := by
  rcases okChar_cases h with h | h | h | h | h <;>
    first
    | (subst h; decide)
    | (simp only [isJsWhitespace, decide_eq_false_iff_not]; omega)

lemma okChar_not_mark {c : Char} (h : okChar c = true) :
    isCombiningMark c = false := by
  rcases okChar_cases h with h | h | h | h | h <;>
    first
    | (subst h; decide)
    | (simp only [isCombiningMark, decide_eq_false_iff_not]; omega)

lemma okChar_kept {c : Char} (h : okChar c = true) : isKeptChar c = true := by
  rcases okChar_cases h with h | h | h | h | h <;>
    first
    | (subst h; decide)
    | (simp only [isKeptChar, decide_eq_true_eq]; tauto)

lemma okChar_toLower {c : Char} (h : okChar c = true) : jsToLower c = c := by
  rcases okChar_cases h with h | h | h | h | h <;>
    first
    | (subst h; decide)
    | (simp only [jsToLower]; rw [if_neg (by omega), if_neg (by omega)])

lemma nfdLookup_eq_none {n : Nat} :
    ∀ t : List (Nat × List Char), (∀ p ∈ t, n ≠ p.1) → nfdLookup n t = none
  | [], _ => rfl
  | (k, v) :: rest, h => by
    simp only [nfdLookup]
    rw [if_neg (h (k, v) (by simp))]
    exact nfdLookup_eq_none rest (fun p hp => h p (by simp [hp]))

lemma nfdChar_eq_of_lt {c : Char} (h : c.toNat < 224) : nfdChar c = [c] := by
  have hk : ∀ p ∈ nfdTable, 224 ≤ p.1 := by decide
  have hn : nfdLookup c.toNat nfdTable = none :=
    nfdLookup_eq_none nfdTable (fun p hp => by have := hk p hp; omega)
  simp [nfdChar, hn]

lemma okChar_nfd {c : Char} (h : okChar c = true) : nfdChar c = [c] := by
  rcases okChar_cases h with h | h | h | h | h <;>
    first
    | (subst h; exact nfdChar_eq_of_lt (by decide))
    | (exact nfdChar_eq_of_lt (by omega))

lemma kept_not_ws_ok {c : Char} (hk : isKeptChar c = true)
    (hw : isJsWhitespace c = false) : okChar c = true := by
  simp only [isKeptChar, decide_eq_true_eq] at hk
  rcases hk with h | h | h | h | h | h
  · exact okChar_of_toNat (by tauto)
  · exact okChar_of_toNat (by tauto)
  · rw [h] at hw; cases hw
  · exact okChar_of_toNat (by tauto)
  · exact okChar_of_toNat (by tauto)
  · exact okChar_of_toNat (by tauto)

/-! ## Pipeline-stage facts -/

lemma map_id_of_mem {f : Char → Char} :
    ∀ l : List Char, (∀ c ∈ l, f c = c) → l.map f = l
  | [], _ => rfl
  | c :: cs, h => by
    simp only [List.map_cons, h c (by simp)]
    rw [map_id_of_mem cs (fun d hd => h d (by simp [hd]))]

lemma dropWhile_eq_self_of {p : Char → Bool} :
    ∀ l : List Char, (∀ c ∈ l, p c = false) → l.dropWhile p = l
  | [], _ => rfl
  | c :: cs, _h => by
    have hc : p c = false := _h c (by simp)
    simp [List.dropWhile_cons, hc]

lemma jsTrim_eq_self {l : List Char}
    (h : ∀ c ∈ l, isJsWhitespace c = false) : jsTrim l = l := by
  unfold jsTrim
  rw [dropWhile_eq_self_of l h,
    dropWhile_eq_self_of l.reverse (fun c hc => h c (List.mem_reverse.mp hc)),
    List.reverse_reverse]

lemma nfdAll_eq_self : ∀ l : List Char, (∀ c ∈ l, nfdChar c = [c]) → nfdAll l = l
  | [], _ => rfl
  | c :: cs, h => by
    have hrec := nfdAll_eq_self cs (fun d hd => h d (by simp [hd]))
    simp only [nfdAll, List.map_cons, List.flatten_cons, h c (by simp)]
    simp only [nfdAll] at hrec
    rw [hrec]
    rfl

lemma stripMarks_eq_self {l : List Char}
    (h : ∀ c ∈ l, isCombiningMark c = false) : stripMarks l = l :=
  List.filter_eq_self.mpr (fun c hc => by simp [h c hc])

lemma keepAllowed_eq_self {l : List Char}
    (h : ∀ c ∈ l, isKeptChar c = true) : keepAllowed l = l :=
  List.filter_eq_self.mpr h

/-! ## Facts about run collapsing -/

lemma noTwoAdjacent_tail {p : Char → Bool} {a : Char} {l : List Char}
    (h : noTwoAdjacent p (a :: l) = true) : noTwoAdjacent p l = true := by
  cases l with
  | nil => rfl
  | cons b rest =>
    simp only [noTwoAdjacent, Bool.and_eq_true] at h
    exact h.2

lemma collapseRunsAux_eq_self_of_none {p : Char → Bool} {r : Char} :
    ∀ (b : Bool) (l : List Char), (∀ c ∈ l, p c = false) →
      collapseRunsAux p r b l = l
  | _, [], _ => rfl
  | b, c :: cs, h => by
    have hc : p c = false := h c (by simp)
    simp only [collapseRunsAux, hc, Bool.false_eq_true, if_false]
    rw [collapseRunsAux_eq_self_of_none false cs (fun d hd => h d (by simp [hd]))]

lemma mem_collapseRunsAux {p : Char → Bool} {r : Char} (l : List Char) :
    ∀ b c, c ∈ collapseRunsAux p r b l → c = r ∨ (c ∈ l ∧ p c = false) := by
  induction l with
  | nil =>
    intro b c h
    simp only [collapseRunsAux] at h
    cases h
  | cons d cs ih =>
    intro b c h
    simp only [collapseRunsAux] at h
    by_cases hd : p d = true
    · rw [if_pos hd] at h
      cases b with
      | true =>
        rcases ih true c h with h1 | ⟨h2, h3⟩
        · exact Or.inl h1
        · exact Or.inr ⟨by simp [h2], h3⟩
      | false =>
        simp only [Bool.false_eq_true, if_false] at h
        rcases List.mem_cons.mp h with h1 | h1
        · exact Or.inl h1
        · rcases ih true c h1 with h2 | ⟨h3, h4⟩
          · exact Or.inl h2
          · exact Or.inr ⟨by simp [h3], h4⟩
    · rw [if_neg hd] at h
      have hd' : p d = false := by simpa using hd
      rcases List.mem_cons.mp h with h1 | h1
      · subst h1; exact Or.inr ⟨by simp, hd'⟩
      · rcases ih false c h1 with h2 | ⟨h3, h4⟩
        · exact Or.inl h2
        · exact Or.inr ⟨by simp [h3], h4⟩

lemma head_collapseRunsAux_true {p : Char → Bool} {r : Char} (l : List Char) :
    ∀ c rest, collapseRunsAux p r true l = c :: rest → p c = false := by
  induction l with
  | nil => intro c rest h; cases h
  | cons d cs ih =>
    intro c rest h
    simp only [collapseRunsAux] at h
    by_cases hd : p d = true
    · rw [if_pos hd] at h
      exact ih c rest h
    · rw [if_neg hd] at h
      have hd' : p d = false := by simpa using hd
      rw [(List.cons.injEq _ _ _ _).mp h |>.1] at hd'
      exact hd'

lemma noTwoAdjacent_collapseRunsAux {p : Char → Bool} {r : Char}
    (l : List Char) :
    ∀ b, noTwoAdjacent p (collapseRunsAux p r b l) = true := by
  induction l with
  | nil => intro b; rfl
  | cons d cs ih =>
    intro b
    simp only [collapseRunsAux]
    by_cases hd : p d = true
    · rw [if_pos hd]
      cases b with
      | true => simpa using ih true
      | false =>
        simp only [Bool.false_eq_true, if_false]
        rcases hrec : collapseRunsAux p r true cs with _ | ⟨e, rest⟩
        · rfl
        · have he : p e = false := head_collapseRunsAux_true cs e rest hrec
          have hn : noTwoAdjacent p (e :: rest) = true := by
            rw [← hrec]; exact ih true
          simp [noTwoAdjacent, he, hn]
    · rw [if_neg hd]
      have hd' : p d = false := by simpa using hd
      rcases hrec : collapseRunsAux p r false cs with _ | ⟨e, rest⟩
      · rfl
      · have hn : noTwoAdjacent p (e :: rest) = true := by
          rw [← hrec]; exact ih false
        simp [noTwoAdjacent, hd', hn]

lemma collapseRunsAux_true_eq_false_of_head {p : Char → Bool} {r : Char}
    (l : List Char) (h : ∀ c rest, l = c :: rest → p c = false) :
    collapseRunsAux p r true l = collapseRunsAux p r false l := by
  cases l with
  | nil => rfl
  | cons d cs =>
    have hd : p d = false := h d cs rfl
    simp [collapseRunsAux, hd]

lemma collapseRunsAux_eq_self {p : Char → Bool} {r : Char} (l : List Char)
    (hadj : noTwoAdjacent p l = true)
    (hr : ∀ c ∈ l, p c = true → c = r) :
    collapseRunsAux p r false l = l := by
  induction l with
  | nil => rfl
  | cons d cs ih =>
    by_cases hd : p d = true
    · have hdr : d = r := hr d (by simp) hd
      simp only [collapseRunsAux, hd, if_true, Bool.false_eq_true, if_false]
      have hswitch : collapseRunsAux p r true cs = collapseRunsAux p r false cs := by
        apply collapseRunsAux_true_eq_false_of_head
        intro c rest hcs
        subst hcs
        simp only [noTwoAdjacent, Bool.and_eq_true, Bool.not_eq_eq_eq_not,
          Bool.not_true, Bool.and_eq_false_imp] at hadj
        exact hadj.1 hd
      rw [hswitch,
        ih (noTwoAdjacent_tail hadj) (fun c hc hpc => hr c (by simp [hc]) hpc),
        ← hdr]
    · have hd' : p d = false := by simpa using hd
      simp only [collapseRunsAux, hd', Bool.false_eq_true, if_false]
      rw [ih (noTwoAdjacent_tail hadj) (fun c hc hpc => hr c (by simp [hc]) hpc)]

/-! ## Characterization of `slugify` output -/

/-- Every character of a slugified string is a slug character or a hyphen. -/
lemma slugify_chars (s : List Char) : ∀ c ∈ slugify s, okChar c = true := by
  intro c hc
  simp only [slugify, collapseHyphens, collapseWs, collapseRuns] at hc
  rcases mem_collapseRunsAux _ false c hc with h1 | ⟨h2, h3⟩
  · subst h1; decide
  · rcases mem_collapseRunsAux _ false c h2 with h4 | ⟨h5, h6⟩
    · subst h4; decide
    · exact kept_not_ws_ok (List.mem_filter.mp h5).2 h6

/-- A slugified string never contains two adjacent hyphens. -/
lemma slugify_noDouble (s : List Char) :
    noTwoAdjacent isHyphen (slugify s) = true := by
  simp only [slugify, collapseHyphens, collapseRuns]
  exact noTwoAdjacent_collapseRunsAux _ false

/-- The function `slugify` fixes every string made of slug characters and hyphens with no
two adjacent hyphens. -/
lemma slugify_fix_of_ok (l : List Char) (h1 : ∀ c ∈ l, okChar c = true)
    (h2 : noTwoAdjacent isHyphen l = true) : slugify l = l := by
  have hlower : l.map jsToLower = l :=
    map_id_of_mem l (fun c hc => okChar_toLower (h1 c hc))
  have htrim : jsTrim l = l :=
    jsTrim_eq_self (fun c hc => okChar_not_ws (h1 c hc))
  have hnfd : nfdAll l = l :=
    nfdAll_eq_self l (fun c hc => okChar_nfd (h1 c hc))
  have hstrip : stripMarks l = l :=
    stripMarks_eq_self (fun c hc => okChar_not_mark (h1 c hc))
  have hkeep : keepAllowed l = l :=
    keepAllowed_eq_self (fun c hc => okChar_kept (h1 c hc))
  have hws : collapseWs l = l :=
    collapseRunsAux_eq_self_of_none false l (fun c hc => okChar_not_ws (h1 c hc))
  have hhy : collapseHyphens l = l :=
    collapseRunsAux_eq_self l h2 (fun c _ hp => isHyphen_eq hp)
  simp only [slugify]
  rw [hlower, htrim, hnfd, hstrip, hkeep, hws, hhy]

/-! ## Facts about the validity matcher -/

/-- A string accepted by either state of the validity matcher consists of slug
characters and hyphens, with no two adjacent hyphens. -/
lemma valid_ok_aux : ∀ (n : Nat) (l : List Char), l.length ≤ n →
    (validGroup l = true →
      (∀ c ∈ l, okChar c = true) ∧ noTwoAdjacent isHyphen l = true) ∧
    (validTail l = true →
      (∀ c ∈ l, okChar c = true) ∧ noTwoAdjacent isHyphen l = true) := by
  intro n
  induction n with
  | zero =>
    intro l hl
    have hnil : l = [] := List.length_eq_zero.mp (Nat.le_zero.mp hl)
    subst hnil
    exact ⟨fun h => (by cases h), fun _ => ⟨(by simp), rfl⟩⟩
  | succ n ih =>
    intro l hl
    cases l with
    | nil => exact ⟨fun h => (by cases h), fun _ => ⟨(by simp), rfl⟩⟩
    | cons c cs =>
      have hcs : cs.length ≤ n := by
        simp only [List.length_cons] at hl; omega
      constructor
      · intro h
        simp only [validGroup, Bool.and_eq_true] at h
        obtain ⟨hslug, htail⟩ := h
        obtain ⟨hok, hadj⟩ := (ih cs hcs).2 htail
        refine ⟨fun d hd => ?_, ?_⟩
        · rcases List.mem_cons.mp hd with rfl | hd
          · simp [okChar, hslug]
          · exact hok d hd
        · cases cs with
          | nil => rfl
          | cons d ds =>
            simp [noTwoAdjacent, slugChar_not_hyphen hslug, hadj]
      · intro h
        simp only [validTail] at h
        by_cases hslug : isSlugChar c = true
        · rw [if_pos hslug] at h
          obtain ⟨hok, hadj⟩ := (ih cs hcs).2 h
          refine ⟨fun d hd => ?_, ?_⟩
          · rcases List.mem_cons.mp hd with rfl | hd
            · simp [okChar, hslug]
            · exact hok d hd
          · cases cs with
            | nil => rfl
            | cons d ds =>
              simp [noTwoAdjacent, slugChar_not_hyphen hslug, hadj]
        · rw [if_neg hslug] at h
          by_cases hhy : c = '-'
          · rw [if_pos hhy] at h
            obtain ⟨hok, hadj⟩ := (ih cs hcs).1 h
            refine ⟨fun d hd => ?_, ?_⟩
            · rcases List.mem_cons.mp hd with rfl | hd
              · subst hhy; decide
              · exact hok d hd
            · cases cs with
              | nil => rfl
              | cons d ds =>
                have hd : isSlugChar d = true := by
                  simp only [validGroup, Bool.and_eq_true] at h
                  exact h.1
                simp [noTwoAdjacent, slugChar_not_hyphen hd, hadj]
          · rw [if_neg hhy] at h
            cases h

/-- Conversely: a non-empty string of slug characters and hyphens, with no
two adjacent hyphens and neither starting nor ending with a hyphen, is
accepted by the matcher. -/
lemma valid_of_ok : ∀ l : List Char, (∀ c ∈ l, okChar c = true) →
    noTwoAdjacent isHyphen l = true → l.getLast? ≠ some '-' →
    validTail l = true ∧
      (l.head? ≠ some '-' → l ≠ [] → validGroup l = true) := by
  intro l
  induction l with
  | nil => exact fun _ _ _ => ⟨rfl, fun _ h => absurd rfl h⟩
  | cons c cs ih =>
    intro hok hadj hlast
    have hcs_last : cs.getLast? ≠ some '-' := by
      cases cs with
      | nil => simp
      | cons d ds => rw [List.getLast?_cons_cons] at hlast; exact hlast
    obtain ⟨ht, hg⟩ :=
      ih (fun d hd => hok d (by simp [hd])) (noTwoAdjacent_tail hadj) hcs_last
    constructor
    · simp only [validTail]
      by_cases hslug : isSlugChar c = true
      · rw [if_pos hslug]; exact ht
      · have hcok := hok c (by simp)
        simp only [okChar, Bool.or_eq_true] at hcok
        have hc : c = '-' := by
          rcases hcok with h | h
          · exact absurd h hslug
          · exact isHyphen_eq h
        rw [if_neg hslug, if_pos hc]
        cases cs with
        | nil => exact absurd (by rw [hc]; rfl) hlast
        | cons d ds =>
          apply hg _ (by simp)
          subst hc
          simp only [noTwoAdjacent, Bool.and_eq_true, Bool.not_eq_eq_eq_not,
            Bool.not_true, Bool.and_eq_false_imp] at hadj
          have hd : isHyphen d = false := hadj.1 (by decide)
          simp only [List.head?_cons, ne_eq, Option.some.injEq]
          intro he
          rw [he] at hd
          exact absurd hd (by decide)
    · intro hhead hne
      have hc_ne : c ≠ '-' := by
        intro he
        exact hhead (by rw [he]; rfl)
      have hslug : isSlugChar c = true := by
        have hcok := hok c (by simp)
        simp only [okChar, Bool.or_eq_true] at hcok
        rcases hcok with h | h
        · exact h
        · exact absurd (isHyphen_eq h) hc_ne
      simp only [validGroup, Bool.and_eq_true]
      exact ⟨hslug, ht⟩

/-! ## Facts about characters the pipeline drops -/

lemma keep_strip_nfd_nil : ∀ l : List Char,
    (∀ c ∈ l, keepAllowed (stripMarks (nfdChar c)) = []) →
    keepAllowed (stripMarks (nfdAll l)) = []
  | [], _ => rfl
  | c :: cs, h => by
    have h1 := h c (by simp)
    have h2 := keep_strip_nfd_nil cs (fun d hd => h d (by simp [hd]))
    simp only [nfdAll, stripMarks, keepAllowed, List.map_cons,
      List.flatten_cons, List.filter_append] at h1 h2 ⊢
    rw [h1, h2]
    rfl

lemma disallowed_not_slugChar {c : Char} (h : disallowedChar c = true) :
    isSlugChar c = false := by
  cases hs : isSlugChar c with
  | false => rfl
  | true =>
    exfalso
    have hok : okChar c = true := by simp [okChar, hs]
    simp only [disallowedChar, Bool.and_eq_true, beq_iff_eq] at h
    have h3 := h.2
    rw [okChar_nfd hok] at h3
    simp [stripMarks, keepAllowed, okChar_not_mark hok, okChar_kept hok] at h3

/-! ## The claims -/

/-- C2: `slugify` is idempotent — applying it twice to any string yields the
same result as applying it once. -/
theorem slugify_idempotent (s : List Char) : slugify (slugify s) = slugify s :=
  slugify_fix_of_ok (slugify s) (slugify_chars s) (slugify_noDouble s)

/-- C9: `slugify` fixes every valid slug — an input accepted by
`isValidSlugRegex` is returned unchanged, so a rename issued for an
already-valid name would target the same name. -/
theorem slugify_fixes_valid_slug (s : List Char)
    (h : isValidSlug s = true) : slugify s = s := by
  obtain ⟨hok, hadj⟩ := (valid_ok_aux s.length s le_rfl).1 h
  exact slugify_fix_of_ok s hok hadj

/-- Witness for C9 at the concrete valid slug `ab-c.d`. -/
theorem slugify_fixes_valid_slug_witness :
    slugify "ab-c.d".toList = "ab-c.d".toList :=
  slugify_fixes_valid_slug _ (by decide)

/-- C1 is false as stated: on the input `"-"`, `slugify` returns the
non-empty string `"-"`, which `isValidSlugRegex` rejects (a slug must not
start with a hyphen). -/
theorem slugify_nonempty_not_valid :
    slugify "-".toList ≠ [] ∧ isValidSlug (slugify "-".toList) = false := by
  decide

/-- C1 (amended): whenever `slugify s` is non-empty and neither its first nor
its last character is a hyphen, `isValidSlug (slugify s)` is true. -/
theorem slugify_valid_unless_edge_hyphen (s : List Char)
    (h1 : slugify s ≠ []) (h2 : (slugify s).head? ≠ some '-')
    (h3 : (slugify s).getLast? ≠ some '-') :
    isValidSlug (slugify s) = true :=
  (valid_of_ok (slugify s) (slugify_chars s) (slugify_noDouble s) h3).2 h2 h1

/-- Witness for the amended C1 at `"A b"`, whose slug `a-b` is valid. -/
theorem slugify_valid_unless_edge_hyphen_witness :
    isValidSlug (slugify "A b".toList) = true :=
  slugify_valid_unless_edge_hyphen _ (by decide) (by decide) (by decide)

/-- C3: when the base name is already a valid slug, `handleRename` decides
no rename and emits no notice, for every directory path and extension. -/
theorem handleRename_valid_noRename (f : FileIdentity)
    (h : isValidSlug f.basename = true) :
    handleRename f = ⟨.noRenameNeeded, []⟩ := by
  have hne : f.basename ≠ [] := by
    intro he
    rw [he] at h
    exact absurd h (by decide)
  simp [handleRename, hne, h]

/-- Witness for C3 at base name `already-valid.v2` in directory `notes`. -/
theorem handleRename_valid_noRename_witness :
    handleRename ⟨"already-valid.v2".toList, "notes".toList, "md".toList⟩ =
      ⟨.noRenameNeeded, []⟩ :=
  handleRename_valid_noRename _ (by decide)

/-- C4: for a non-empty base name that is not a valid slug, `handleRename`
decides a rename to `directory ++ "/" ++ slugify(baseName) ++ extension`
when the directory is non-empty and to `slugify(baseName) ++ extension`
otherwise, where the extension carries its leading dot and is empty when the
file has none; directory and extension are passed through unchanged, and the
slugified notice is emitted. -/
theorem handleRename_invalid_renames (f : FileIdentity)
    (h1 : f.basename ≠ []) (h2 : isValidSlug f.basename = false) :
    handleRename f =
      ⟨.renameTo (if f.dirPath ≠ [] then
          f.dirPath ++ '/' :: (slugify f.basename ++
            (if f.extension = [] then [] else '.' :: f.extension))
        else slugify f.basename ++
          (if f.extension = [] then [] else '.' :: f.extension)),
        [slugifiedNotice]⟩ := by
  simp [handleRename, h1, h2]

/-- Witness for C4: base name `a b` in directory `notes` with extension `md`
is renamed to `notes/a-b.md`. -/
theorem handleRename_invalid_renames_witness :
    handleRename ⟨"a b".toList, "notes".toList, "md".toList⟩ =
      ⟨.renameTo (if "notes".toList ≠ ([] : List Char) then
          "notes".toList ++ '/' :: (slugify "a b".toList ++
            (if "md".toList = ([] : List Char) then []
             else '.' :: "md".toList))
        else slugify "a b".toList ++
          (if "md".toList = ([] : List Char) then []
           else '.' :: "md".toList)),
        [slugifiedNotice]⟩ :=
  handleRename_invalid_renames _ (by decide) (by decide)

/-- C7: with a missing or empty base name, the rename handler is a silent
no-op: the guard returns without a rename decision, without a notice and
without an error. -/
theorem handleRename_empty_noop (f : FileIdentity) (h : f.basename = []) :
    handleRename f = ⟨.skipped, []⟩ := by
  simp [handleRename, h]

/-- Witness for C7 at an empty base name. -/
theorem handleRename_empty_noop_witness :
    handleRename ⟨[], "notes".toList, "md".toList⟩ = ⟨.skipped, []⟩ :=
  handleRename_empty_noop _ rfl

/-- C8: a non-empty base name consisting entirely of dropped characters
(such as `"???"`) slugifies to the empty string, and the rename policy then
decides a rename whose path has an empty slug segment: separator and
extension composed around nothing. -/
theorem slugify_disallowed_empty_rename (f : FileIdentity)
    (h1 : f.basename ≠ [])
    (h2 : ∀ c ∈ f.basename, disallowedChar c = true) :
    slugify f.basename = [] ∧
      handleRename f =
        ⟨.renameTo (if f.dirPath ≠ [] then
            f.dirPath ++ '/' ::
              (if f.extension = [] then [] else '.' :: f.extension)
          else (if f.extension = [] then [] else '.' :: f.extension)),
          [slugifiedNotice]⟩ := by
  have hslug : slugify f.basename = [] := by
    have hlower : f.basename.map jsToLower = f.basename :=
      map_id_of_mem _ (fun c hc => by
        have hd := h2 c hc
        simp only [disallowedChar, Bool.and_eq_true, beq_iff_eq] at hd
        exact hd.1.1)
    have htrim : jsTrim f.basename = f.basename :=
      jsTrim_eq_self (fun c hc => by
        have hd := h2 c hc
        simp only [disallowedChar, Bool.and_eq_true, Bool.not_eq_true'] at hd
        exact hd.1.2)
    have hnil : keepAllowed (stripMarks (nfdAll f.basename)) = [] :=
      keep_strip_nfd_nil _ (fun c hc => by
        have hd := h2 c hc
        simp only [disallowedChar, Bool.and_eq_true, beq_iff_eq] at hd
        exact hd.2)
    simp only [slugify, hlower, htrim, hnil]
    rfl
  refine ⟨hslug, ?_⟩
  have hinvalid : isValidSlug f.basename = false := by
    rcases hb : f.basename with _ | ⟨c, cs⟩
    · exact absurd hb h1
    · have hc : disallowedChar c = true := h2 c (by rw [hb]; simp)
      simp [isValidSlug, validGroup, disallowed_not_slugChar hc]
  simp [handleRename, h1, hinvalid, hslug]

/-- Witness for C8 at base name `???` in directory `notes` with extension
`md`: the decision is a rename to `notes/.md`. -/
theorem slugify_disallowed_empty_rename_witness :
    slugify "???".toList = [] ∧
      handleRename ⟨"???".toList, "notes".toList, "md".toList⟩ =
        ⟨.renameTo (if "notes".toList ≠ ([] : List Char) then
            "notes".toList ++ '/' ::
              (if "md".toList = ([] : List Char) then []
               else '.' :: "md".toList)
          else (if "md".toList = ([] : List Char) then []
               else '.' :: "md".toList)),
          [slugifiedNotice]⟩ :=
  slugify_disallowed_empty_rename
    ⟨"???".toList, "notes".toList, "md".toList⟩ (by decide) (by decide)

/-- C5: the target view mode is the reading mode (`"preview"`) exactly when
the owner field is present, non-empty and different from the current user;
in every other case — in particular whenever the owner metadata is absent —
it is the editable mode (`"source"`), for every observed mode. -/
theorem viewMode_target_readonly_iff (fo : Option String) (u : String)
    (obs : Option String) :
    ((checkAndSetViewMode fo u obs).targetMode = "preview" ↔
      ∃ o, fo = some o ∧ o ≠ "" ∧ o ≠ u) ∧
    ((checkAndSetViewMode fo u obs).targetMode = "source" ↔
      ¬∃ o, fo = some o ∧ o ≠ "" ∧ o ≠ u) := by
  cases fo with
  | none =>
    cases obs with
    | none => simp [checkAndSetViewMode]
    | some m =>
      by_cases hm : m ≠ "source" <;> simp [checkAndSetViewMode, hm]
  | some o =>
    by_cases h : o ≠ "" ∧ o ≠ u
    · cases obs with
      | none => simp [checkAndSetViewMode, h]
      | some m =>
        by_cases hm : m ≠ "preview" <;> simp [checkAndSetViewMode, h, hm]
    · cases obs with
      | none =>
        simp only [checkAndSetViewMode, if_neg h]
        constructor
        · constructor
          · intro hc; exact absurd hc (by decide)
          · rintro ⟨o', ho', hcond⟩
            rw [Option.some.injEq] at ho'
            subst ho'
            exact absurd hcond h
        · constructor
          · rintro - ⟨o', ho', hcond⟩
            rw [Option.some.injEq] at ho'
            subst ho'
            exact absurd hcond h
          · intro _; trivial
      | some m =>
        by_cases hm : m ≠ "source" <;>
          · simp only [checkAndSetViewMode, if_neg h, if_pos hm, if_neg hm]
            constructor
            · constructor
              · intro hc; exact absurd hc (by decide)
              · rintro ⟨o', ho', hcond⟩
                rw [Option.some.injEq] at ho'
                subst ho'
                exact absurd hcond h
            · constructor
              · rintro - ⟨o', ho', hcond⟩
                rw [Option.some.injEq] at ho'
                subst ho'
                exact absurd hcond h
              · intro _; trivial

/-- C6: the view-state change flag of the arbiter is true only when the
observed mode differs from the computed target mode; whenever the observed
mode already equals the target, no view-state change is requested and no
notice is produced. -/
theorem viewMode_change_only_when_differs (fo : Option String) (u : String)
    (obs : Option String) :
    ((checkAndSetViewMode fo u obs).changed = true ↔
      ∃ m, obs = some m ∧ m ≠ (checkAndSetViewMode fo u obs).targetMode) ∧
    (obs = some (checkAndSetViewMode fo u obs).targetMode →
      (checkAndSetViewMode fo u obs).changed = false ∧
      (checkAndSetViewMode fo u obs).notices = []) := by
  cases fo with
  | none =>
    cases obs with
    | none => simp [checkAndSetViewMode]
    | some m => by_cases hm : m ≠ "source" <;> simp [checkAndSetViewMode, hm]
  | some o =>
    by_cases h : o ≠ "" ∧ o ≠ u
    · cases obs with
      | none => simp [checkAndSetViewMode, h]
      | some m =>
        by_cases hm : m ≠ "preview" <;> simp [checkAndSetViewMode, h, hm]
    · cases obs with
      | none => simp [checkAndSetViewMode, h]
      | some m =>
        by_cases hm : m ≠ "source" <;> simp [checkAndSetViewMode, h, hm]

/-- C10: when the observed view state is unavailable (`getState` missing or
returning nothing), the arbiter requests no view-state change and emits no
notice, whatever the owner field and current user — even when the computed
target mode is the reading mode. -/
theorem viewMode_no_observed_state_noop (fo : Option String) (u : String) :
    (checkAndSetViewMode fo u none).changed = false ∧
    (checkAndSetViewMode fo u none).notices = [] := by
  cases fo with
  | none => exact ⟨rfl, rfl⟩
  | some o =>
    by_cases h : o ≠ "" ∧ o ≠ u <;>
      simp [checkAndSetViewMode, h]

end TitleSlugify
